import Mathlib

/-!
Verification of the HIL native kernel (src/hil/core/native/hilbert_math.c and
src/hil/core/native/hilbert_native.c).

Modelling conventions:
* `size_t` and `uint32_t` quantities are modelled as `ℕ` (all uses here are
  reads and comparisons, never overflowing arithmetic).
* Edge weights (IEEE-754 doubles fed to `isfinite` and sign tests) are
  modelled by `HDouble`: a finite double is an exact rational, and the
  non-finite values (`+inf`, `-inf`, `nan`) are explicit constructors.
* Field coordinates and the real-valued diagnostics are modelled in exact
  real arithmetic `ℝ` (perturbation renormalises by a Euclidean norm, so the
  results are genuinely irrational); rounding error is idealised away.
* A C pointer argument that may be `NULL` is modelled as an `Option`; a
  function that mutates through a pointer returns the new contents of the
  pointed-to structure (explicit state passing).  Reading through a `NULL`
  array pointer is undefined behaviour in C; it is modelled by a junk
  default, and every theorem whose meaning depends on array contents
  assumes the arrays are present.
* Heap allocation is assumed to succeed (the `malloc == NULL` degraded
  paths of the C code are not reachable in the model).
* Accumulation loops (`for` loops summing into a scalar) are written as
  `Finset.range` sums; the indexed-write loop of `hil_graph_degree` and the
  queue loop of the BFS are kept as explicit folds / fuelled recursion.
-/

namespace HIL

/-- Model of an IEEE-754 double where the C code distinguishes finite from
non-finite values: every finite double is an exact rational; the non-finite
values are explicit. -/
inductive HDouble where
  | fin (q : ℚ)
  | posInf
  | negInf
  | nan
deriving DecidableEq

/-- C `isfinite`. -/
def HDouble.isfinite : HDouble → Bool
  | .fin _ => true
  | _ => false

/-- C comparison `w < 0.0` (false on `nan`, true on `-inf`). -/
def HDouble.ltZero : HDouble → Bool
  | .fin q => decide (q < 0)
  | .negInf => true
  | _ => false

/-- Numeric value of a finite double; junk `0` on non-finite values (the
code only does arithmetic on weights after validation). -/
def HDouble.toRat : HDouble → ℚ
  | .fin q => q
  | _ => 0

/-- `HIL_EPS` (1e-12) at the type at which the C code compares exactly
representable rational quantities. -/
def HIL_EPS_Q : ℚ := 1 / 1000000000000

/-- `HIL_EPS` (1e-12) as a real number. -/
noncomputable def HIL_EPS : ℝ := 1 / 1000000000000

theorem HIL_EPS_cast : ((HIL_EPS_Q : ℚ) : ℝ) = HIL_EPS := by
  unfold HIL_EPS_Q HIL_EPS
  push_cast
  ring

theorem HIL_EPS_pos : 0 < HIL_EPS := by
  unfold HIL_EPS
  norm_num

/-- `hil_clamp_min(x, m)`: `(x < m) ? m : x`, i.e. `max x m`. -/
noncomputable def hil_clamp_min (x m : ℝ) : ℝ := max x m

/-- `hil_safe_log(x) = log(clamp_min(x, HIL_EPS))`. -/
noncomputable def hil_safe_log (x : ℝ) : ℝ := Real.log (hil_clamp_min x HIL_EPS)

/-- `hil_det_sign(idx)`: `(idx & 1u) ? -1.0 : 1.0`. -/
def hil_det_sign (idx : ℕ) : ℝ := if idx.land 1 = 1 then -1 else 1

/-- `hil_vec_dot(a, b, n)`. -/
noncomputable def hil_vec_dot (a b : ℕ → ℝ) (n : ℕ) : ℝ :=
  ∑ i ∈ Finset.range n, a i * b i

/-- `hil_vec_norm(a, n)`: square root of the sum of squares. -/
noncomputable def hil_vec_norm (a : ℕ → ℝ) (n : ℕ) : ℝ :=
  Real.sqrt (∑ i ∈ Finset.range n, a i * a i)

/-! ## Data model (hilbert_native.h) -/

/-- `hil_graph_t`: implicit nodes `0 .. num_nodes-1` and parallel edge
arrays.  The arrays are separately nullable pointers; their contents are
modelled as total functions on the index. -/
structure hil_graph_t where
  num_nodes : ℕ
  num_edges : ℕ
  src : Option (ℕ → ℕ)
  dst : Option (ℕ → ℕ)
  weight : Option (ℕ → HDouble)

/-- `graph->src[e]` (junk `0` if the array is absent: that read is UB in C). -/
def srcAt (g : hil_graph_t) (e : ℕ) : ℕ := (g.src.getD (fun _ => 0)) e

/-- `graph->dst[e]` (junk `0` if the array is absent). -/
def dstAt (g : hil_graph_t) (e : ℕ) : ℕ := (g.dst.getD (fun _ => 0)) e

/-- `graph->weight[e]` (junk `nan` if the array is absent). -/
def weightAt (g : hil_graph_t) (e : ℕ) : HDouble :=
  (g.weight.getD (fun _ => HDouble.nan)) e

/-- `hil_matrix_t`: row-major dense matrix; `data` is a nullable buffer. -/
structure hil_matrix_t where
  data : Option (ℕ → ℝ)
  rows : ℕ
  cols : ℕ

/-- `hil_field_t`. -/
structure hil_field_t where
  coordinates : hil_matrix_t

/-! ## hil_graph_validate -/

/-- `hil_graph_validate` (returns `true` for the C return value `1`). -/
def hil_graph_validate (graph : Option hil_graph_t) : Bool :=
  match graph with
  | none => false
  | some g =>
    if g.num_nodes = 0 then false
    else if 0 < g.num_edges ∧ (g.src.isNone = true ∨ g.dst.isNone = true ∨
            g.weight.isNone = true) then false
    else (List.range g.num_edges).all (fun e =>
      decide (srcAt g e < g.num_nodes) && decide (dstAt g e < g.num_nodes) &&
      (weightAt g e).isfinite && !(weightAt g e).ltZero)

/-- The rejection condition stated by the specification: absent graph, zero
nodes, missing edge arrays alongside edges, an out-of-range endpoint, or a
non-finite or negative weight. -/
def graphInvalid (graph : Option hil_graph_t) : Prop :=
  graph = none ∨ ∃ g, graph = some g ∧
    (g.num_nodes = 0 ∨
     (0 < g.num_edges ∧ (g.src = none ∨ g.dst = none ∨ g.weight = none)) ∨
     (∃ e < g.num_edges, g.num_nodes ≤ srcAt g e ∨ g.num_nodes ≤ dstAt g e ∨
        (weightAt g e).isfinite = false ∨ (weightAt g e).ltZero = true))

/-! ## hil_graph_degree -/

/-- Body of the accumulation loop of `hil_graph_degree`: one edge `e`
performs `out[src[e]] += w` then `out[dst[e]] += w`. -/
def degStep (g : hil_graph_t) (acc : ℕ → ℚ) (e : ℕ) : ℕ → ℚ :=
  let s := srcAt g e
  let d := dstAt g e
  let w := (weightAt g e).toRat
  let acc1 : ℕ → ℚ := fun i => if i = s then acc i + w else acc i
  fun i => if i = d then acc1 i + w else acc1 i

/-- `hil_graph_degree(graph, out_degree)`: zero-fills the first `num_nodes`
entries of the output buffer, then folds `degStep` over the edge list.  The
returned function is the final contents of the buffer. -/
def hil_graph_degree (graph : Option hil_graph_t) (out_degree : ℕ → ℚ) : ℕ → ℚ :=
  match graph with
  | none => out_degree
  | some g =>
    let init : ℕ → ℚ := fun i => if i < g.num_nodes then 0 else out_degree i
    (List.range g.num_edges).foldl (degStep g) init

/-- The degree buffer `hil_graph_entropy` computes internally (the malloc'd
buffer starts as junk; `hil_graph_degree` overwrites the first `num_nodes`
entries, the only ones read afterwards).  Junk is modelled as `0`. -/
def entropyDeg (g : hil_graph_t) : ℕ → ℚ :=
  hil_graph_degree (some g) (fun _ => 0)

/-! ## hil_graph_entropy -/

/-- `hil_graph_entropy`: Shannon entropy of the normalised weighted-degree
distribution, skipping terms with `p ≤ HIL_EPS`, returning `0` for an
absent graph, zero nodes, or total degree `≤ HIL_EPS`. -/
noncomputable def hil_graph_entropy (graph : Option hil_graph_t) : ℝ :=
  match graph with
  | none => 0
  | some g =>
    if g.num_nodes = 0 then 0
    else
      let deg := entropyDeg g
      let sum_deg : ℚ := ∑ i ∈ Finset.range g.num_nodes, deg i
      if sum_deg ≤ HIL_EPS_Q then 0
      else ∑ i ∈ Finset.range g.num_nodes,
        (if HIL_EPS_Q < deg i / sum_deg then
          -(((deg i / sum_deg : ℚ) : ℝ) * hil_safe_log ((deg i / sum_deg : ℚ) : ℝ))
         else 0)

/-! ## hil_graph_connected_components

The C routine builds a compressed-sparse-row adjacency structure (two
passes over the edge list, both skipping edges with an out-of-range
endpoint) and then runs a breadth-first search from every unvisited node,
counting BFS trees.  The CSR layout is modelled as per-node adjacency
lists with exactly the same multiset of entries (each in-range edge
`(s, d)` contributes `d` to the list of `s` and `s` to the list of `d`);
the BFS queue of capacity `n` is modelled as a list, and the `while`
loop as fuelled recursion (the loop performs at most one iteration per
enqueue, and at most `n` nodes are ever enqueued, so fuel `n + 1`
suffices). -/

/-- The edge list `(src[e], dst[e])` for `e < num_edges`. -/
def edgeList (g : hil_graph_t) : List (ℕ × ℕ) :=
  (List.range g.num_edges).map (fun e => (srcAt g e, dstAt g e))

/-- The edges both of whose endpoints are in range — exactly the ones the
two adjacency passes of the C code do not skip. -/
def inRangeEdges (g : hil_graph_t) : List (ℕ × ℕ) :=
  (edgeList g).filter
    (fun p => decide (p.1 < g.num_nodes) && decide (p.2 < g.num_nodes))

/-- Adjacency list of node `v` (undirected: each in-range edge contributes
one entry in each direction, as in the CSR fill pass). -/
def adjOf (g : hil_graph_t) (v : ℕ) : List ℕ :=
  (inRangeEdges g).flatMap
    (fun p => (if p.1 = v then [p.2] else []) ++ (if p.2 = v then [p.1] else []))

/-- The inner neighbour loop of the BFS: for each `u` in `l`, if `u` is
unseen, mark it and append it to the queue. -/
def bfsEnqueue (seen : Finset ℕ) (q : List ℕ) (l : List ℕ) : Finset ℕ × List ℕ :=
  l.foldl (fun st u => if u ∈ st.1 then st else (insert u st.1, st.2 ++ [u]))
    (seen, q)

/-- The BFS `while (qh < qt)` loop: pop the queue head, enqueue its unseen
neighbours, repeat; returns the final `seen` set. -/
def bfsRun (adj : ℕ → List ℕ) : ℕ → Finset ℕ → List ℕ → Finset ℕ
  | 0, seen, _ => seen
  | _ + 1, seen, [] => seen
  | fuel + 1, seen, v :: rest =>
    let st := bfsEnqueue seen rest (adj v)
    bfsRun adj fuel st.1 st.2

/-- Body of the root-scanning loop of `hil_graph_connected_components`:
an already-seen root is skipped; an unseen root starts one more BFS tree
(the root is marked `seen` before the queue loop starts). -/
def compStep (g : hil_graph_t) (st : Finset ℕ × ℕ) (i : ℕ) : Finset ℕ × ℕ :=
  if i ∈ st.1 then st
  else (bfsRun (adjOf g) (g.num_nodes + 1) (insert i st.1) [i], st.2 + 1)

/-- `hil_graph_connected_components`: one BFS tree per unvisited root,
scanning roots in index order. -/
def hil_graph_connected_components (graph : Option hil_graph_t) : ℕ :=
  match graph with
  | none => 0
  | some g =>
    if g.num_nodes = 0 then 0
    else ((List.range g.num_nodes).foldl (compStep g) ((∅ : Finset ℕ), 0)).2

/-! Specification-side component counts.  `specAdj` follows the spec's
words for a valid graph ("the undirected graph induced by the edge
list"); `subAdj` is the same relation restricted to in-range edges (the
subgraph the implicit claim about out-of-range endpoints refers to). -/

/-- One-step adjacency of the undirected graph induced by the edge list. -/
def specAdj (g : hil_graph_t) (u v : ℕ) : Prop :=
  ∃ e < g.num_edges,
    (srcAt g e = u ∧ dstAt g e = v) ∨ (srcAt g e = v ∧ dstAt g e = u)

/-- One-step adjacency via edges whose endpoints are both in range. -/
def subAdj (g : hil_graph_t) (u v : ℕ) : Prop :=
  ∃ e < g.num_edges, srcAt g e < g.num_nodes ∧ dstAt g e < g.num_nodes ∧
    ((srcAt g e = u ∧ dstAt g e = v) ∨ (srcAt g e = v ∧ dstAt g e = u))

/-- Number of connected components of the undirected graph induced by the
edge list: the number of distinct reachability classes of nodes. -/
noncomputable def specComponents (g : hil_graph_t) : ℕ :=
  Set.ncard {S : Set ℕ | ∃ i < g.num_nodes,
    S = {u | Relation.ReflTransGen (specAdj g) i u}}

/-- Number of connected components of the subgraph formed by the in-range
edges only. -/
noncomputable def subComponents (g : hil_graph_t) : ℕ :=
  Set.ncard {S : Set ℕ | ∃ i < g.num_nodes,
    S = {u | Relation.ReflTransGen (subAdj g) i u}}

/-! ## Field diagnostics -/

/-- Row `r` of a row-major coordinate buffer with `cols` columns. -/
def matRow (data : ℕ → ℝ) (cols r : ℕ) : ℕ → ℝ :=
  fun c => data (r * cols + c)

/-- `hil_field_coherence`: mean cosine similarity of each row to the
centroid, both norms clamped below by `HIL_EPS`; `0` on an absent or
empty field. -/
noncomputable def hil_field_coherence (field : Option hil_field_t) : ℝ :=
  match field with
  | none => 0
  | some f =>
    let M := f.coordinates
    match M.data with
    | none => 0
    | some data =>
      if M.rows = 0 ∨ M.cols = 0 then 0
      else
        let centroid : ℕ → ℝ :=
          fun c => (∑ r ∈ Finset.range M.rows, matRow data M.cols r c) *
            ((1 : ℝ) / (M.rows : ℝ))
        let c_norm := hil_clamp_min (hil_vec_norm centroid M.cols) HIL_EPS
        let sum_cos := ∑ r ∈ Finset.range M.rows,
          hil_vec_dot (matRow data M.cols r) centroid M.cols /
            (hil_clamp_min (hil_vec_norm (matRow data M.cols r) M.cols) HIL_EPS *
              c_norm)
        sum_cos / (M.rows : ℝ)

/-! ## hil_field_perturb -/

/-- The contents of one row after the `plus-minus epsilon` pass (flattened index
`idx = r*cols + c` drives the sign). -/
noncomputable def perturbRow (data : ℕ → ℝ) (cols r : ℕ) (epsilon : ℝ) : ℕ → ℝ :=
  fun c => data (r * cols + c) + epsilon * hil_det_sign (r * cols + c)

open Classical in
/-- The coordinate buffer after `hil_field_perturb`: each row gets the
alternating `plus-minus epsilon` pass and is then rescaled by `1/norm` when its
post-perturbation norm exceeds `HIL_EPS`; indices outside the matrix are
untouched. -/
noncomputable def perturbData (data : ℕ → ℝ) (rows cols : ℕ) (epsilon : ℝ) : ℕ → ℝ :=
  fun i =>
    if i < rows * cols then
      let r := i / cols
      let c := i % cols
      let nrm := hil_vec_norm (perturbRow data cols r epsilon) cols
      if HIL_EPS < nrm then
        perturbRow data cols r epsilon c * ((1 : ℝ) / nrm)
      else perturbRow data cols r epsilon c
    else data i

/-- `hil_field_perturb(field, epsilon)`: in-place mutation, modelled as the
new contents of the caller's structure; absent or empty fields are
returned untouched. -/
noncomputable def hil_field_perturb (field : Option hil_field_t) (epsilon : ℝ) :
    Option hil_field_t :=
  match field with
  | none => none
  | some f =>
    let M := f.coordinates
    match M.data with
    | none => some f
    | some data =>
      if M.rows = 0 ∨ M.cols = 0 then some f
      else some ⟨⟨some (perturbData data M.rows M.cols epsilon), M.rows, M.cols⟩⟩

/-! ## hil_epistemic_stability -/

/-- `hil_epistemic_stability(field, graph)`: `|C1 - C0| / eps` where `C1`
is the coherence of a perturbed private deep copy of the field.  The
result is paired with the caller-visible contents of `field` after the
call (every write of the C routine lands in the freshly allocated copy,
so that second component is the input itself on every path).  The `graph`
argument is accepted and never read, exactly as in the C source. -/
noncomputable def hil_epistemic_stability (field : Option hil_field_t)
    (graph : Option hil_graph_t) : ℝ × Option hil_field_t :=
  match field with
  | none => (0, field)
  | some f =>
    let eps : ℝ := 1 / 1000000
    let C0 := hil_field_coherence field
    let M := f.coordinates
    match M.data with
    | none => (0, field)
    | some data =>
      if M.rows = 0 ∨ M.cols = 0 then (0, field)
      else
        let tmp : hil_field_t := ⟨⟨some data, M.rows, M.cols⟩⟩
        let tmp2 := hil_field_perturb (some tmp) eps
        let C1 := hil_field_coherence tmp2
        (|C1 - C0| / eps, field)

/-! ## Release helpers -/

/-- `hil_matrix_free`: frees the buffer and zeroes the descriptors;
`free(NULL)` and a null matrix pointer are no-ops. -/
def hil_matrix_free (mat : Option hil_matrix_t) : Option hil_matrix_t :=
  match mat with
  | none => none
  | some _ => some ⟨none, 0, 0⟩

/-- `hil_graph_free`: frees the three edge arrays and zeroes all
descriptors. -/
def hil_graph_free (graph : Option hil_graph_t) : Option hil_graph_t :=
  match graph with
  | none => none
  | some _ => some ⟨0, 0, none, none, none⟩

/-- `hil_field_free`: releases the embedded coordinate matrix. -/
def hil_field_free (field : Option hil_field_t) : Option hil_field_t :=
  match field with
  | none => none
  | some _ => some ⟨⟨none, 0, 0⟩⟩

/-! ## Claims about the lifecycle and stability frame (C2, C6, C7, C9) -/

/-- Unfolding of the spec-side rejection predicate at a present graph. -/
theorem graphInvalid_some (g : hil_graph_t) :
    graphInvalid (some g) ↔
      (g.num_nodes = 0 ∨
       (0 < g.num_edges ∧ (g.src = none ∨ g.dst = none ∨ g.weight = none)) ∨
       (∃ e < g.num_edges, g.num_nodes ≤ srcAt g e ∨ g.num_nodes ≤ dstAt g e ∨
          (weightAt g e).isfinite = false ∨ (weightAt g e).ltZero = true)) := by
  simp [graphInvalid]

/-- `hil_graph_validate` returns `1` exactly when all checks pass. -/
theorem validate_true_iff (g : hil_graph_t) :
    hil_graph_validate (some g) = true ↔
      (g.num_nodes ≠ 0 ∧
       ¬(0 < g.num_edges ∧ (g.src = none ∨ g.dst = none ∨ g.weight = none)) ∧
       ∀ e < g.num_edges, srcAt g e < g.num_nodes ∧ dstAt g e < g.num_nodes ∧
         (weightAt g e).isfinite = true ∧ (weightAt g e).ltZero = false) := by
  unfold hil_graph_validate
  dsimp only
  split_ifs with h1 h2
  · simp [h1]
  · simp only [Bool.false_eq_true, false_iff]
    intro hcon
    rcases h2 with ⟨hm, hmiss⟩
    refine hcon.2.1 ⟨hm, ?_⟩
    rcases hmiss with h | h | h
    · exact Or.inl (Option.isNone_iff_eq_none.mp h)
    · exact Or.inr (Or.inl (Option.isNone_iff_eq_none.mp h))
    · exact Or.inr (Or.inr (Option.isNone_iff_eq_none.mp h))
  · rw [List.all_eq_true]
    constructor
    · intro hall
      refine ⟨h1, ?_, ?_⟩
      · intro ⟨hm, hmiss⟩
        refine h2 ⟨hm, ?_⟩
        rcases hmiss with h | h | h <;> simp [h]
      · intro e he
        have := hall e (List.mem_range.mpr he)
        simp only [Bool.and_eq_true, decide_eq_true_eq, Bool.not_eq_true'] at this
        exact ⟨this.1.1.1, this.1.1.2, this.1.2, this.2⟩
    · intro ⟨_, _, hgood⟩ e he
      have := hgood e (List.mem_range.mp he)
      simp only [Bool.and_eq_true, decide_eq_true_eq, Bool.not_eq_true']
      exact ⟨⟨⟨this.1, this.2.1⟩, this.2.2.1⟩, this.2.2.2⟩

/-- C2: `hil_graph_validate` returns false exactly for a null graph, zero
nodes, edges with a missing edge array, an out-of-range endpoint, or a
negative or non-finite weight; it returns true for every other graph, in
particular every zero-edge graph with at least one node. -/
theorem C2_validate (graph : Option hil_graph_t) :
    (hil_graph_validate graph = false ↔ graphInvalid graph) ∧
    (∀ g, graph = some g → 0 < g.num_nodes → g.num_edges = 0 →
      hil_graph_validate graph = true) := by
  constructor
  · cases graph with
    | none => simp [hil_graph_validate, graphInvalid]
    | some g =>
      rw [Bool.eq_false_iff, Ne, validate_true_iff, graphInvalid_some]
      constructor
      · intro hno
        by_cases h1 : g.num_nodes = 0
        · exact Or.inl h1
        by_cases h2 : 0 < g.num_edges ∧ (g.src = none ∨ g.dst = none ∨ g.weight = none)
        · exact Or.inr (Or.inl h2)
        right; right
        by_contra hnone
        push_neg at hnone
        refine hno ⟨h1, h2, ?_⟩
        intro e he
        have h3 := hnone e he
        refine ⟨by omega, by omega, ?_, ?_⟩
        · cases hfin : (weightAt g e).isfinite
          · exact absurd hfin h3.2.2.1
          · rfl
        · cases hneg : (weightAt g e).ltZero
          · rfl
          · exact absurd hneg h3.2.2.2
      · rintro (h1 | h2 | ⟨e, he, hbad⟩) ⟨k1, k2, k3⟩
        · exact k1 h1
        · exact k2 h2
        · have := k3 e he
          rcases hbad with h | h | h | h
          · omega
          · omega
          · rw [this.2.2.1] at h; exact Bool.noConfusion h
          · rw [this.2.2.2] at h; exact Bool.noConfusion h
  · rintro g rfl hn hm
    rw [validate_true_iff]
    exact ⟨by omega, by simp [hm], by omega⟩

/-- Witness for C2 at a concrete graph: two nodes, no edges, accepted. -/
theorem C2_validate_witness :
    hil_graph_validate (some ⟨2, 0, none, none, none⟩) = true :=
  (C2_validate (some ⟨2, 0, none, none, none⟩)).2 ⟨2, 0, none, none, none⟩ rfl
    (by decide) rfl

/-- C6: `hil_epistemic_stability` leaves the caller's field completely
unchanged — the caller-visible field contents after the call (second
component of the model) are the input field on every path, because the
perturbation is applied only to the private deep copy. -/
theorem C6_stability_frame (field : Option hil_field_t) (graph : Option hil_graph_t) :
    (hil_epistemic_stability field graph).2 = field := by
  unfold hil_epistemic_stability
  cases field with
  | none => rfl
  | some f =>
    cases hd : f.coordinates.data with
    | none => simp [hd]
    | some d =>
      simp only [hd]
      split <;> rfl

/-- C7: the graph argument has no influence on `hil_epistemic_stability`:
two calls on the same field with any two graph arguments (including null)
return identical results and identical final field states; the model is a
pure function of the field, so repeated calls are deterministic. -/
theorem C7_stability_graph_irrelevant (field : Option hil_field_t)
    (g1 g2 : Option hil_graph_t) :
    hil_epistemic_stability field g1 = hil_epistemic_stability field g2 := rfl

/-- C9: the release operations zero every descriptor (all buffer pointers
null, all counts zero) and are idempotent; releasing through a null
structure pointer is a no-op. -/
theorem C9_free_idempotent (g : hil_graph_t) (m : hil_matrix_t) :
    hil_graph_free (some g) = some ⟨0, 0, none, none, none⟩ ∧
    hil_graph_free (hil_graph_free (some g)) = hil_graph_free (some g) ∧
    hil_graph_free none = none ∧
    hil_matrix_free (some m) = some ⟨none, 0, 0⟩ ∧
    hil_matrix_free (hil_matrix_free (some m)) = hil_matrix_free (some m) ∧
    hil_matrix_free none = none :=
  ⟨rfl, rfl, rfl, rfl, rfl, rfl⟩

/-! ## C3: degree sums -/

theorem sum_update (acc : ℕ → ℚ) (s : ℕ) (w : ℚ) (n : ℕ) (hs : s < n) :
    ∑ i ∈ Finset.range n, (if i = s then acc i + w else acc i) =
      (∑ i ∈ Finset.range n, acc i) + w := by
  have h : ∀ i ∈ Finset.range n,
      (if i = s then acc i + w else acc i) = acc i + (if i = s then w else 0) := by
    intro i _
    split <;> simp
  rw [Finset.sum_congr rfl h, Finset.sum_add_distrib,
    Finset.sum_ite_eq' (Finset.range n) s (fun _ => w)]
  simp [Finset.mem_range.mpr hs]

theorem degStep_sum (g : hil_graph_t) (acc : ℕ → ℚ) (e : ℕ)
    (hs : srcAt g e < g.num_nodes) (hd : dstAt g e < g.num_nodes) :
    ∑ i ∈ Finset.range g.num_nodes, degStep g acc e i =
      (∑ i ∈ Finset.range g.num_nodes, acc i) + 2 * (weightAt g e).toRat := by
  unfold degStep
  rw [sum_update _ _ _ _ hd, sum_update _ _ _ _ hs]
  ring

/-- Each step of the degree loop reads the accumulator only at the written
index, so pointwise-equal accumulators stay pointwise equal. -/
theorem degStep_pointwise (g : hil_graph_t) (acc acc2 : ℕ → ℚ) (e i : ℕ)
    (h : acc i = acc2 i) : degStep g acc e i = degStep g acc2 e i := by
  unfold degStep
  dsimp only
  rw [h]

theorem degree_fold_sum (g : hil_graph_t) :
    ∀ (m : ℕ) (acc : ℕ → ℚ),
      (∀ e < m, srcAt g e < g.num_nodes ∧ dstAt g e < g.num_nodes) →
      ∑ i ∈ Finset.range g.num_nodes, (List.range m).foldl (degStep g) acc i =
        (∑ i ∈ Finset.range g.num_nodes, acc i) +
          2 * ∑ e ∈ Finset.range m, (weightAt g e).toRat := by
  intro m
  induction m with
  | zero => simp
  | succ m ih =>
    intro acc hin
    rw [List.range_succ, List.foldl_append]
    simp only [List.foldl_cons, List.foldl_nil]
    rw [degStep_sum g _ m (hin m (by omega)).1 (hin m (by omega)).2,
      ih acc (fun e he => hin e (by omega)), Finset.sum_range_succ]
    ring

theorem degree_fold_congr (g : hil_graph_t) :
    ∀ (m : ℕ) (acc acc2 : ℕ → ℚ),
      (∀ i < g.num_nodes, acc i = acc2 i) →
      ∀ i < g.num_nodes,
        (List.range m).foldl (degStep g) acc i =
          (List.range m).foldl (degStep g) acc2 i := by
  intro m
  induction m with
  | zero => intro acc acc2 h i hi; exact h i hi
  | succ m ih =>
    intro acc acc2 h i hi
    rw [List.range_succ, List.foldl_append, List.foldl_append]
    simp only [List.foldl_cons, List.foldl_nil]
    exact degStep_pointwise g _ _ m i (ih acc acc2 h i hi)

/-- C3: for a graph with in-range endpoints and finite weights, the total
weighted degree written by `hil_graph_degree` is exactly twice the total
edge weight, and the first `num_nodes` entries of the output buffer are
fully overwritten: their final contents do not depend on the buffer's
prior contents. -/
theorem C3_degree_sum (n m : ℕ) (sf df : ℕ → ℕ) (wf : ℕ → HDouble) (out : ℕ → ℚ)
    (hin : ∀ e < m, sf e < n ∧ df e < n)
    (hfin : ∀ e < m, (wf e).isfinite = true) :
    (∑ i ∈ Finset.range n,
        hil_graph_degree (some ⟨n, m, some sf, some df, some wf⟩) out i =
      2 * ∑ e ∈ Finset.range m, (wf e).toRat) ∧
    (∀ out2, ∀ i < n,
      hil_graph_degree (some ⟨n, m, some sf, some df, some wf⟩) out i =
        hil_graph_degree (some ⟨n, m, some sf, some df, some wf⟩) out2 i) := by
  have hga : ∀ e, srcAt ⟨n, m, some sf, some df, some wf⟩ e = sf e := fun _ => rfl
  have hgb : ∀ e, dstAt ⟨n, m, some sf, some df, some wf⟩ e = df e := fun _ => rfl
  constructor
  · unfold hil_graph_degree
    dsimp only
    have hsum := degree_fold_sum ⟨n, m, some sf, some df, some wf⟩ m
      (fun i => if i < n then (0 : ℚ) else out i) (fun e he => hin e he)
    dsimp only at hsum
    rw [hsum]
    have hz : ∑ i ∈ Finset.range n,
        (fun i => if i < n then (0 : ℚ) else out i) i = 0 := by
      apply Finset.sum_eq_zero
      intro i hi
      simp [Finset.mem_range.mp hi]
    rw [hz]
    simp [weightAt]
  · intro out2 i hi
    unfold hil_graph_degree
    dsimp only
    have hcg := degree_fold_congr ⟨n, m, some sf, some df, some wf⟩ m
      (fun i => if i < n then (0 : ℚ) else out i)
      (fun i => if i < n then (0 : ℚ) else out2 i)
      (fun j hj => by simp [hj]) i hi
    exact hcg

/-- Witness for C3 at a single-edge graph on two nodes. -/
theorem C3_degree_sum_witness :
    (∑ i ∈ Finset.range 2,
        hil_graph_degree
          (some ⟨2, 1, some (fun _ => 0), some (fun _ => 1),
            some (fun _ => HDouble.fin 1)⟩) (fun _ => 5) i =
      2 * ∑ e ∈ Finset.range 1, (HDouble.fin 1).toRat) ∧
    (∀ out2, ∀ i < 2,
      hil_graph_degree
          (some ⟨2, 1, some (fun _ => 0), some (fun _ => 1),
            some (fun _ => HDouble.fin 1)⟩) (fun _ => 5) i =
        hil_graph_degree
          (some ⟨2, 1, some (fun _ => 0), some (fun _ => 1),
            some (fun _ => HDouble.fin 1)⟩) out2 i) :=
  C3_degree_sum 2 1 (fun _ => 0) (fun _ => 1) (fun _ => HDouble.fin 1) (fun _ => 5)
    (by decide) (by decide)

/-! ## C4: structural entropy of a uniform degree distribution -/

/-- C4 counterexample: on the 2-node edgeless graph every node has the
same weighted degree, yet `hil_graph_entropy` returns `0`, not
`ln(num_nodes) = ln 2`: the claim as stated contradicts the total-degree
guard. -/
theorem C4_entropy_counterexample :
    (∀ i < 2, ∀ j < 2,
      entropyDeg ⟨2, 0, none, none, none⟩ i = entropyDeg ⟨2, 0, none, none, none⟩ j) ∧
    hil_graph_entropy (some ⟨2, 0, none, none, none⟩) = 0 ∧
    Real.log ((2 : ℕ) : ℝ) ≠ 0 := by
  have hdeg : ∀ i, entropyDeg ⟨2, 0, none, none, none⟩ i = 0 := by
    intro i
    simp [entropyDeg, hil_graph_degree]
  refine ⟨?_, ?_, ?_⟩
  · intro i _ j _
    rw [hdeg, hdeg]
  · have hc : (∑ i ∈ Finset.range 2, entropyDeg ⟨2, 0, none, none, none⟩ i) ≤
        HIL_EPS_Q := by
      simp only [hdeg, Finset.sum_const_zero]
      norm_num [HIL_EPS_Q]
    unfold hil_graph_entropy
    dsimp only
    rw [if_neg (by decide : ¬(2 = 0)), if_pos hc]
  · have h2 : (1 : ℝ) < ((2 : ℕ) : ℝ) := by norm_num
    exact ne_of_gt (Real.log_pos h2)

/-- C4 (amended): for a graph whose node weighted-degrees are all equal,
whose total degree exceeds `HIL_EPS`, and whose uniform probability
`1/num_nodes` also exceeds `HIL_EPS`, the entropy is exactly
`ln(num_nodes)`; the entropy is `0` whenever the total degree is at most
`HIL_EPS` or there are no nodes, and for an absent graph. -/
theorem C4_entropy_uniform (g : hil_graph_t) :
    ((∀ i < g.num_nodes, ∀ j < g.num_nodes, entropyDeg g i = entropyDeg g j) →
     HIL_EPS_Q < ∑ i ∈ Finset.range g.num_nodes, entropyDeg g i →
     HIL_EPS_Q < 1 / (g.num_nodes : ℚ) →
     hil_graph_entropy (some g) = Real.log (g.num_nodes : ℝ)) ∧
    ((∑ i ∈ Finset.range g.num_nodes, entropyDeg g i ≤ HIL_EPS_Q ∨ g.num_nodes = 0) →
     hil_graph_entropy (some g) = 0) ∧
    hil_graph_entropy none = 0 := by
  refine ⟨?_, ?_, rfl⟩
  · intro hu hs hp
    have hn : g.num_nodes ≠ 0 := by
      intro h
      rw [h] at hp
      norm_num [HIL_EPS_Q] at hp
    have hn0 : 0 < g.num_nodes := Nat.pos_of_ne_zero hn
    have hnR : (g.num_nodes : ℝ) ≠ 0 := Nat.cast_ne_zero.mpr hn
    have hnQ : (g.num_nodes : ℚ) ≠ 0 := Nat.cast_ne_zero.mpr hn
    have hS : ∑ i ∈ Finset.range g.num_nodes, entropyDeg g i =
        (g.num_nodes : ℚ) * entropyDeg g 0 := by
      rw [Finset.sum_congr rfl (fun i hi => hu i (Finset.mem_range.mp hi) 0 hn0)]
      rw [Finset.sum_const, Finset.card_range, nsmul_eq_mul]
    have hd0 : entropyDeg g 0 ≠ 0 := by
      intro h
      rw [hS, h, mul_zero] at hs
      norm_num [HIL_EPS_Q] at hs
    have hp_eq : ∀ i < g.num_nodes,
        entropyDeg g i / (∑ j ∈ Finset.range g.num_nodes, entropyDeg g j) =
          1 / (g.num_nodes : ℚ) := by
      intro i hi
      rw [hu i hi 0 hn0, hS, div_eq_div_iff (mul_ne_zero hnQ hd0) hnQ]
      ring
    unfold hil_graph_entropy
    dsimp only
    rw [if_neg hn, if_neg (not_le.mpr hs)]
    have hterm : ∀ i ∈ Finset.range g.num_nodes,
        (if HIL_EPS_Q <
            entropyDeg g i / (∑ j ∈ Finset.range g.num_nodes, entropyDeg g j) then
          -(((entropyDeg g i /
              (∑ j ∈ Finset.range g.num_nodes, entropyDeg g j) : ℚ) : ℝ) *
            hil_safe_log ((entropyDeg g i /
              (∑ j ∈ Finset.range g.num_nodes, entropyDeg g j) : ℚ) : ℝ))
         else 0) = Real.log (g.num_nodes : ℝ) / (g.num_nodes : ℝ) := by
      intro i hi
      rw [hp_eq i (Finset.mem_range.mp hi), if_pos hp]
      unfold hil_safe_log hil_clamp_min
      have hle : HIL_EPS ≤ ((1 / (g.num_nodes : ℚ) : ℚ) : ℝ) := by
        rw [← HIL_EPS_cast]
        exact_mod_cast le_of_lt hp
      rw [max_eq_left hle]
      have hcast : ((1 / (g.num_nodes : ℚ) : ℚ) : ℝ) = 1 / (g.num_nodes : ℝ) := by
        push_cast
        ring
      rw [hcast, one_div, Real.log_inv]
      ring
    refine (Finset.sum_congr rfl hterm).trans ?_
    rw [Finset.sum_const, Finset.card_range, nsmul_eq_mul, mul_comm]
    exact div_mul_cancel₀ _ hnR
  · intro h
    unfold hil_graph_entropy
    dsimp only
    by_cases hn : g.num_nodes = 0
    · rw [if_pos hn]
    · rw [if_neg hn]
      rcases h with h | h
      · rw [if_pos h]
      · exact absurd h hn

/-- Witness for C4 at the single-edge two-node graph with unit weight:
both degrees are 1, total degree 2, and the entropy is `ln 2`. -/
theorem C4_entropy_uniform_witness :
    hil_graph_entropy (some ⟨2, 1, some (fun _ => 0), some (fun _ => 1),
      some (fun _ => HDouble.fin 1)⟩) = Real.log ((2 : ℕ) : ℝ) := by
  have h0 : entropyDeg ⟨2, 1, some (fun _ => 0), some (fun _ => 1),
      some (fun _ => HDouble.fin 1)⟩ 0 = 1 := by
    norm_num [entropyDeg, hil_graph_degree, degStep, srcAt, dstAt, weightAt,
      HDouble.toRat, List.range_succ, List.range_zero]
  have h1 : entropyDeg ⟨2, 1, some (fun _ => 0), some (fun _ => 1),
      some (fun _ => HDouble.fin 1)⟩ 1 = 1 := by
    norm_num [entropyDeg, hil_graph_degree, degStep, srcAt, dstAt, weightAt,
      HDouble.toRat, List.range_succ, List.range_zero]
  refine (C4_entropy_uniform _).1 ?_ ?_ ?_
  · intro i hi j hj
    have hi2 : i < 2 := hi
    have hj2 : j < 2 := hj
    interval_cases i <;> interval_cases j <;> simp [h0, h1]
  · show HIL_EPS_Q < ∑ i ∈ Finset.range 2, entropyDeg ⟨2, 1, some (fun _ => 0),
      some (fun _ => 1), some (fun _ => HDouble.fin 1)⟩ i
    rw [Finset.sum_range_succ, Finset.sum_range_one, h0, h1]
    norm_num [HIL_EPS_Q]
  · show HIL_EPS_Q < 1 / ((2 : ℕ) : ℚ)
    norm_num [HIL_EPS_Q]

/-! ## C5: coherence of a field with identical rows -/

/-- C5 counterexample: the 1-by-1 field holding the zero vector is
non-empty and all its rows are identical, yet `hil_field_coherence`
returns `0`, not `1` (the `HIL_EPS` clamp makes the cosine of a zero row
to a zero centroid equal to `0`). -/
theorem C5_coherence_counterexample :
    (∀ r < 1, ∀ c < 1, (fun _ => (0 : ℝ)) (r * 1 + c) = (fun _ => (0 : ℝ)) c) ∧
    hil_field_coherence (some ⟨⟨some (fun _ => (0 : ℝ)), 1, 1⟩⟩) = 0 ∧
    (0 : ℝ) ≠ 1 := by
  refine ⟨fun r _ c _ => rfl, ?_, by norm_num⟩
  unfold hil_field_coherence
  dsimp only
  rw [if_neg (by norm_num)]
  norm_num [hil_vec_dot, matRow, Finset.sum_range_one]

/-- C5 (amended): a non-empty field in which every row equals a fixed
vector `v` whose Euclidean norm over the first `cols` entries exceeds
`HIL_EPS` has coherence exactly `1`; an absent or empty field has
coherence `0`. -/
theorem C5_coherence_uniform (d : ℕ → ℝ) (rows cols : ℕ) (v : ℕ → ℝ)
    (hrows : 0 < rows) (hcols : 0 < cols)
    (hrow : ∀ r < rows, ∀ c < cols, d (r * cols + c) = v c)
    (hnorm : HIL_EPS < hil_vec_norm v cols) :
    hil_field_coherence (some ⟨⟨some d, rows, cols⟩⟩) = 1 ∧
    (∀ f : hil_field_t, (f.coordinates.data = none ∨ f.coordinates.rows = 0 ∨
       f.coordinates.cols = 0) → hil_field_coherence (some f) = 0) ∧
    hil_field_coherence none = 0 := by
  refine ⟨?_, ?_, rfl⟩
  · have hrowsR : ((rows : ℕ) : ℝ) ≠ 0 := Nat.cast_ne_zero.mpr (by omega)
    have hcenc : ∀ c < cols,
        (∑ r ∈ Finset.range rows, matRow d cols r c) * ((1 : ℝ) / (rows : ℝ)) =
          v c := by
      intro c hc
      have h1 : ∀ r ∈ Finset.range rows, matRow d cols r c = v c := by
        intro r hr
        exact hrow r (Finset.mem_range.mp hr) c hc
      rw [Finset.sum_congr rfl h1, Finset.sum_const, Finset.card_range,
        nsmul_eq_mul]
      field_simp
    have hcnorm : hil_vec_norm
        (fun c => (∑ r ∈ Finset.range rows, matRow d cols r c) *
          ((1 : ℝ) / (rows : ℝ))) cols = hil_vec_norm v cols := by
      unfold hil_vec_norm
      congr 1
      refine Finset.sum_congr rfl ?_
      intro c hc
      dsimp only
      rw [hcenc c (Finset.mem_range.mp hc)]
    have hS : (0 : ℝ) ≤ ∑ c ∈ Finset.range cols, v c * v c :=
      Finset.sum_nonneg (fun c _ => mul_self_nonneg (v c))
    have hnv0 : (0 : ℝ) < hil_vec_norm v cols := lt_trans HIL_EPS_pos hnorm
    have hSne : (∑ c ∈ Finset.range cols, v c * v c) ≠ 0 := by
      intro h
      rw [hil_vec_norm, h, Real.sqrt_zero] at hnv0
      exact lt_irrefl 0 hnv0
    have hterm : ∀ r ∈ Finset.range rows,
        hil_vec_dot (matRow d cols r)
            (fun c => (∑ r2 ∈ Finset.range rows, matRow d cols r2 c) *
              ((1 : ℝ) / (rows : ℝ))) cols /
          (hil_clamp_min (hil_vec_norm (matRow d cols r) cols) HIL_EPS *
            hil_clamp_min (hil_vec_norm
              (fun c => (∑ r2 ∈ Finset.range rows, matRow d cols r2 c) *
                ((1 : ℝ) / (rows : ℝ))) cols) HIL_EPS) = 1 := by
      intro r hr
      have hrnorm : hil_vec_norm (matRow d cols r) cols = hil_vec_norm v cols := by
        unfold hil_vec_norm
        congr 1
        refine Finset.sum_congr rfl ?_
        intro c hc
        rw [matRow, hrow r (Finset.mem_range.mp hr) c (Finset.mem_range.mp hc)]
      have hdot : hil_vec_dot (matRow d cols r)
          (fun c => (∑ r2 ∈ Finset.range rows, matRow d cols r2 c) *
            ((1 : ℝ) / (rows : ℝ))) cols =
          ∑ c ∈ Finset.range cols, v c * v c := by
        unfold hil_vec_dot
        refine Finset.sum_congr rfl ?_
        intro c hc
        dsimp only
        rw [hcenc c (Finset.mem_range.mp hc), matRow,
          hrow r (Finset.mem_range.mp hr) c (Finset.mem_range.mp hc)]
      rw [hdot, hrnorm, hcnorm]
      rw [hil_clamp_min, max_eq_left (le_of_lt hnorm)]
      rw [hil_vec_norm, Real.mul_self_sqrt hS]
      exact div_self hSne
    unfold hil_field_coherence
    dsimp only
    rw [if_neg (by omega)]
    refine Eq.trans (congrArg (fun s => s / ((rows : ℕ) : ℝ))
      (Finset.sum_congr rfl hterm)) ?_
    rw [Finset.sum_const, Finset.card_range, nsmul_eq_mul, mul_one]
    exact div_self hrowsR
  · intro f h
    unfold hil_field_coherence
    cases hd : f.coordinates.data with
    | none => simp only [hd]
    | some dd =>
      simp only [hd]
      rcases h with h | h | h
      · rw [hd] at h
        exact absurd h (by simp)
      · rw [if_pos (Or.inl h)]
      · rw [if_pos (Or.inr h)]

/-- Witness for C5 at the 1-by-1 field holding the vector `(1)`. -/
theorem C5_coherence_uniform_witness :
    hil_field_coherence (some ⟨⟨some (fun _ => (1 : ℝ)), 1, 1⟩⟩) = 1 ∧
    (∀ f : hil_field_t, (f.coordinates.data = none ∨ f.coordinates.rows = 0 ∨
       f.coordinates.cols = 0) → hil_field_coherence (some f) = 0) ∧
    hil_field_coherence none = 0 :=
  C5_coherence_uniform (fun _ => 1) 1 1 (fun _ => 1) (by norm_num) (by norm_num)
    (fun _ _ _ _ => rfl)
    (by
      unfold hil_vec_norm
      rw [Finset.sum_range_one, mul_one, Real.sqrt_one]
      norm_num [HIL_EPS])

/-! ## C8: the perturbation operator -/

/-- Decoding the flattened index: the buffer entry at `r*cols + c` after
perturbation is the perturbed row entry, rescaled when the
post-perturbation row norm exceeds `HIL_EPS`. -/
theorem perturbData_at (d : ℕ → ℝ) (rows cols : ℕ) (epsilon : ℝ) (r c : ℕ)
    (hr : r < rows) (hc : c < cols) :
    perturbData d rows cols epsilon (r * cols + c) =
      if HIL_EPS < hil_vec_norm (perturbRow d cols r epsilon) cols then
        perturbRow d cols r epsilon c *
          ((1 : ℝ) / hil_vec_norm (perturbRow d cols r epsilon) cols)
      else perturbRow d cols r epsilon c := by
  unfold perturbData
  have hlt : r * cols + c < rows * cols := by
    have h1 : r + 1 ≤ rows := hr
    calc r * cols + c < r * cols + cols := by omega
    _ = (r + 1) * cols := by ring
    _ ≤ rows * cols := Nat.mul_le_mul_right cols h1
  have hdiv : (r * cols + c) / cols = r := by
    rw [add_comm, Nat.add_mul_div_right c r (show 0 < cols by omega),
      Nat.div_eq_of_lt hc, zero_add]
  have hmod : (r * cols + c) % cols = c := by
    rw [add_comm, Nat.add_mul_mod_self_right]
    exact Nat.mod_eq_of_lt hc
  rw [if_pos hlt]
  dsimp only
  rw [hdiv, hmod]

/-- C8: `hil_field_perturb` on a non-empty field replaces the coordinate
buffer by `perturbData`; at row `r`, column `c` the new value is the old
value plus `epsilon * det_sign(r*cols + c)`, rescaled by the reciprocal
post-perturbation row norm exactly when that norm exceeds `HIL_EPS` (in
which case the resulting row has unit norm); rows whose perturbed norm is
at most `HIL_EPS` are left unnormalised; an absent or empty field is not
mutated at all. -/
theorem C8_perturb (d : ℕ → ℝ) (rows cols : ℕ) (epsilon : ℝ) (r c : ℕ)
    (hr : r < rows) (hc : c < cols) :
    (hil_field_perturb (some ⟨⟨some d, rows, cols⟩⟩) epsilon =
      some ⟨⟨some (perturbData d rows cols epsilon), rows, cols⟩⟩) ∧
    (perturbData d rows cols epsilon (r * cols + c) =
      if HIL_EPS < hil_vec_norm
          (fun c2 => d (r * cols + c2) + epsilon * hil_det_sign (r * cols + c2))
          cols then
        (d (r * cols + c) + epsilon * hil_det_sign (r * cols + c)) *
          ((1 : ℝ) / hil_vec_norm
            (fun c2 => d (r * cols + c2) + epsilon * hil_det_sign (r * cols + c2))
            cols)
      else d (r * cols + c) + epsilon * hil_det_sign (r * cols + c)) ∧
    (HIL_EPS < hil_vec_norm (perturbRow d cols r epsilon) cols →
      hil_vec_norm (fun c2 => perturbData d rows cols epsilon (r * cols + c2))
        cols = 1) ∧
    (∀ field : Option hil_field_t,
      (∀ f, field = some f → f.coordinates.data = none ∨
        f.coordinates.rows = 0 ∨ f.coordinates.cols = 0) →
      hil_field_perturb field epsilon = field) := by
  refine ⟨?_, ?_, ?_, ?_⟩
  · unfold hil_field_perturb
    dsimp only
    rw [if_neg (by omega)]
  · exact perturbData_at d rows cols epsilon r c hr hc
  · intro hn
    have hnv0 : 0 < hil_vec_norm (perturbRow d cols r epsilon) cols :=
      lt_trans HIL_EPS_pos hn
    have key : ∀ c2 < cols, perturbData d rows cols epsilon (r * cols + c2) =
        perturbRow d cols r epsilon c2 *
          ((1 : ℝ) / hil_vec_norm (perturbRow d cols r epsilon) cols) := by
      intro c2 hc2
      rw [perturbData_at d rows cols epsilon r c2 hr hc2, if_pos hn]
    have hS2 : (0 : ℝ) ≤ ∑ c2 ∈ Finset.range cols,
        perturbRow d cols r epsilon c2 * perturbRow d cols r epsilon c2 :=
      Finset.sum_nonneg (fun c2 _ => mul_self_nonneg _)
    unfold hil_vec_norm
    have hsum : (∑ c2 ∈ Finset.range cols,
        perturbData d rows cols epsilon (r * cols + c2) *
          perturbData d rows cols epsilon (r * cols + c2)) =
        (∑ c2 ∈ Finset.range cols,
          perturbRow d cols r epsilon c2 * perturbRow d cols r epsilon c2) *
          (((1 : ℝ) / hil_vec_norm (perturbRow d cols r epsilon) cols) *
            ((1 : ℝ) / hil_vec_norm (perturbRow d cols r epsilon) cols)) := by
      rw [Finset.sum_mul]
      refine Finset.sum_congr rfl ?_
      intro c2 hc2
      rw [key c2 (Finset.mem_range.mp hc2)]
      ring
    dsimp only
    rw [hsum, Real.sqrt_mul hS2,
      Real.sqrt_mul_self (le_of_lt (one_div_pos.mpr hnv0))]
    have hdef : hil_vec_norm (perturbRow d cols r epsilon) cols =
        Real.sqrt (∑ c2 ∈ Finset.range cols,
          perturbRow d cols r epsilon c2 * perturbRow d cols r epsilon c2) := rfl
    rw [← hdef, mul_one_div]
    exact div_self (ne_of_gt hnv0)
  · intro field hempty
    cases field with
    | none => rfl
    | some f =>
      have h := hempty f rfl
      unfold hil_field_perturb
      cases hd : f.coordinates.data with
      | none => simp only [hd]
      | some dd =>
        simp only [hd]
        rcases h with h | h | h
        · rw [hd] at h
          exact absurd h (by simp)
        · rw [if_pos (Or.inl h)]
        · rw [if_pos (Or.inr h)]

/-- Witness for C8 at the 1-by-1 field holding `(1)` with `epsilon = 0`. -/
theorem C8_perturb_witness :
    (hil_field_perturb (some ⟨⟨some (fun _ => (1 : ℝ)), 1, 1⟩⟩) 0 =
      some ⟨⟨some (perturbData (fun _ => (1 : ℝ)) 1 1 0), 1, 1⟩⟩) ∧
    (perturbData (fun _ => (1 : ℝ)) 1 1 0 (0 * 1 + 0) =
      if HIL_EPS < hil_vec_norm
          (fun c2 => (fun _ => (1 : ℝ)) (0 * 1 + c2) +
            0 * hil_det_sign (0 * 1 + c2)) 1 then
        ((fun _ => (1 : ℝ)) (0 * 1 + 0) + 0 * hil_det_sign (0 * 1 + 0)) *
          ((1 : ℝ) / hil_vec_norm
            (fun c2 => (fun _ => (1 : ℝ)) (0 * 1 + c2) +
              0 * hil_det_sign (0 * 1 + c2)) 1)
      else (fun _ => (1 : ℝ)) (0 * 1 + 0) + 0 * hil_det_sign (0 * 1 + 0)) ∧
    (HIL_EPS < hil_vec_norm (perturbRow (fun _ => (1 : ℝ)) 1 0 0) 1 →
      hil_vec_norm (fun c2 => perturbData (fun _ => (1 : ℝ)) 1 1 0 (0 * 1 + c2))
        1 = 1) ∧
    (∀ field : Option hil_field_t,
      (∀ f, field = some f → f.coordinates.data = none ∨
        f.coordinates.rows = 0 ∨ f.coordinates.cols = 0) →
      hil_field_perturb field 0 = field) :=
  C8_perturb (fun _ => 1) 1 1 0 0 0 (by decide) (by decide)

/-! ## C1/C10: adjacency characterisation -/

theorem mem_inRangeEdges (g : hil_graph_t) (p : ℕ × ℕ) :
    p ∈ inRangeEdges g ↔ ∃ e < g.num_edges,
      p = (srcAt g e, dstAt g e) ∧ srcAt g e < g.num_nodes ∧
        dstAt g e < g.num_nodes := by
  unfold inRangeEdges edgeList
  rw [List.mem_filter]
  simp only [List.mem_map, List.mem_range, Bool.and_eq_true, decide_eq_true_eq]
  constructor
  · rintro ⟨⟨e, he, rfl⟩, hs, hd⟩
    exact ⟨e, he, rfl, hs, hd⟩
  · rintro ⟨e, he, rfl, hs, hd⟩
    exact ⟨⟨e, he, rfl⟩, hs, hd⟩

theorem mem_adjOf (g : hil_graph_t) (v u : ℕ) :
    u ∈ adjOf g v ↔ subAdj g v u := by
  unfold adjOf subAdj
  rw [List.mem_flatMap]
  constructor
  · rintro ⟨p, hp, hmem⟩
    rw [mem_inRangeEdges] at hp
    obtain ⟨e, he, hpe, hs, hd⟩ := hp
    subst hpe
    rw [List.mem_append] at hmem
    rcases hmem with hm | hm
    · by_cases h1 : srcAt g e = v
      · rw [if_pos h1] at hm
        exact ⟨e, he, hs, hd, Or.inl ⟨h1, (List.mem_singleton.mp hm).symm⟩⟩
      · rw [if_neg h1] at hm
        exact absurd hm (List.not_mem_nil u)
    · by_cases h2 : dstAt g e = v
      · rw [if_pos h2] at hm
        exact ⟨e, he, hs, hd, Or.inr ⟨(List.mem_singleton.mp hm).symm, h2⟩⟩
      · rw [if_neg h2] at hm
        exact absurd hm (List.not_mem_nil u)
  · rintro ⟨e, he, hs, hd, hcase⟩
    refine ⟨(srcAt g e, dstAt g e), ?_, ?_⟩
    · rw [mem_inRangeEdges]
      exact ⟨e, he, rfl, hs, hd⟩
    · rw [List.mem_append]
      rcases hcase with ⟨h1, h2⟩ | ⟨h1, h2⟩
      · left
        rw [if_pos h1]
        exact List.mem_singleton.mpr h2.symm
      · right
        rw [if_pos h2]
        exact List.mem_singleton.mpr h1.symm

theorem adjOf_bounded (g : hil_graph_t) (v u : ℕ) (h : u ∈ adjOf g v) :
    u < g.num_nodes := by
  rw [mem_adjOf] at h
  obtain ⟨e, he, hs, hd, hcase⟩ := h
  rcases hcase with ⟨h1, h2⟩ | ⟨h1, h2⟩ <;> omega

theorem subAdj_symm (g : hil_graph_t) {u v : ℕ} (h : subAdj g u v) :
    subAdj g v u := by
  obtain ⟨e, he, hs, hd, hc⟩ := h
  exact ⟨e, he, hs, hd, hc.symm⟩

theorem reach_symm (g : hil_graph_t) {u v : ℕ}
    (h : Relation.ReflTransGen (subAdj g) u v) :
    Relation.ReflTransGen (subAdj g) v u := by
  induction h with
  | refl => exact Relation.ReflTransGen.refl
  | tail _ h2 ih => exact Relation.ReflTransGen.head (subAdj_symm g h2) ih

theorem reach_mem_closed (g : hil_graph_t) (S : Finset ℕ)
    (hclosed : ∀ v ∈ S, ∀ u, subAdj g v u → u ∈ S) {a b : ℕ} (ha : a ∈ S)
    (h : Relation.ReflTransGen (subAdj g) a b) : b ∈ S := by
  induction h with
  | refl => exact ha
  | tail _ h2 ih => exact hclosed _ ih _ h2

/-! ## C1/C10: the BFS queue loop -/

theorem bfsEnqueue_cons (seen : Finset ℕ) (q : List ℕ) (u : ℕ) (l : List ℕ) :
    bfsEnqueue seen q (u :: l) =
      if u ∈ seen then bfsEnqueue seen q l
      else bfsEnqueue (insert u seen) (q ++ [u]) l := by
  unfold bfsEnqueue
  simp only [List.foldl_cons]
  split_ifs with h
  · rfl
  · rfl

/-- Effect of the neighbour loop: the seen set grows by the neighbour
list, and the queue is extended by a duplicate-free list of exactly the
previously unseen neighbours. -/
theorem bfsEnqueue_spec (l : List ℕ) :
    ∀ (seen : Finset ℕ) (q : List ℕ),
      (bfsEnqueue seen q l).1 = seen ∪ l.toFinset ∧
      ∃ t : List ℕ, (bfsEnqueue seen q l).2 = q ++ t ∧ t.Nodup ∧
        t.toFinset = l.toFinset \ seen := by
  induction l with
  | nil =>
    intro seen q
    refine ⟨by simp [bfsEnqueue], [], by simp [bfsEnqueue], List.nodup_nil, by simp⟩
  | cons u l ih =>
    intro seen q
    rw [bfsEnqueue_cons]
    by_cases hu : u ∈ seen
    · rw [if_pos hu]
      obtain ⟨h1, t, h2, h3, h4⟩ := ih seen q
      refine ⟨?_, t, h2, h3, ?_⟩
      · rw [h1, List.toFinset_cons]
        ext x
        simp only [Finset.mem_union, Finset.mem_insert]
        constructor
        · rintro (h | h)
          · exact Or.inl h
          · exact Or.inr (Or.inr h)
        · rintro (h | h | h)
          · exact Or.inl h
          · exact Or.inl (h ▸ hu)
          · exact Or.inr h
      · rw [h4, List.toFinset_cons]
        ext x
        simp only [Finset.mem_sdiff, Finset.mem_insert]
        constructor
        · rintro ⟨hx, hxs⟩
          exact ⟨Or.inr hx, hxs⟩
        · rintro ⟨hx | hx, hxs⟩
          · exact absurd (hx ▸ hu) hxs
          · exact ⟨hx, hxs⟩
    · rw [if_neg hu]
      obtain ⟨h1, t, h2, h3, h4⟩ := ih (insert u seen) (q ++ [u])
      have hut : u ∉ t := by
        intro hmem
        have : u ∈ t.toFinset := List.mem_toFinset.mpr hmem
        rw [h4] at this
        exact (Finset.mem_sdiff.mp this).2 (Finset.mem_insert_self u seen)
      refine ⟨?_, u :: t, ?_, List.nodup_cons.mpr ⟨hut, h3⟩, ?_⟩
      · rw [h1, List.toFinset_cons]
        ext x
        simp only [Finset.mem_union, Finset.mem_insert]
        tauto
      · rw [h2, List.append_assoc]
        rfl
      · rw [List.toFinset_cons, h4, List.toFinset_cons]
        ext x
        simp only [Finset.mem_insert, Finset.mem_sdiff]
        constructor
        · rintro (hx | ⟨hx, hxs⟩)
          · exact ⟨Or.inl hx, hx ▸ hu⟩
          · refine ⟨Or.inr hx, fun hxseen => hxs (Or.inr hxseen)⟩
        · rintro ⟨hx | hx, hxs⟩
          · exact Or.inl hx
          · by_cases hxu : x = u
            · exact Or.inl hxu
            · exact Or.inr ⟨hx, fun hh => (hh.elim hxu hxs)⟩

/-- Correctness of the fuelled BFS loop: starting from a seen set that is
adjacency-saturated except at the queue nodes, and with enough fuel, the
loop returns a superset of `seen` that is adjacency-closed and adds only
nodes reachable from the queue. -/
theorem bfsRun_spec (g : hil_graph_t) :
    ∀ (fuel : ℕ) (seen : Finset ℕ) (q : List ℕ),
      (∀ v ∈ q, v ∈ seen) →
      (∀ v ∈ seen, v ∉ q → ∀ u, subAdj g v u → u ∈ seen) →
      q.length + (Finset.range g.num_nodes \ seen).card ≤ fuel →
      seen ⊆ bfsRun (adjOf g) fuel seen q ∧
      (∀ v ∈ bfsRun (adjOf g) fuel seen q, ∀ u, subAdj g v u →
        u ∈ bfsRun (adjOf g) fuel seen q) ∧
      (∀ u ∈ bfsRun (adjOf g) fuel seen q, u ∈ seen ∨
        ∃ v ∈ q, Relation.ReflTransGen (subAdj g) v u) := by
  intro fuel
  induction fuel with
  | zero =>
    intro seen q hq hsat hfuel
    have hq0 : q = [] := List.length_eq_zero.mp (by omega)
    subst hq0
    refine ⟨Finset.Subset.refl seen, ?_, fun u hu => Or.inl hu⟩
    intro v hv u hadj
    exact hsat v hv (List.not_mem_nil v) u hadj
  | succ fuel ih =>
    intro seen q hq hsat hfuel
    cases q with
    | nil =>
      refine ⟨Finset.Subset.refl seen, ?_, fun u hu => Or.inl hu⟩
      intro v hv u hadj
      exact hsat v hv (List.not_mem_nil v) u hadj
    | cons v rest =>
      obtain ⟨hE1, t, hE2, hE3, hE4⟩ := bfsEnqueue_spec (adjOf g v) seen rest
      have hrunstep : bfsRun (adjOf g) (fuel + 1) seen (v :: rest) =
          bfsRun (adjOf g) fuel (bfsEnqueue seen rest (adjOf g v)).1
            (bfsEnqueue seen rest (adjOf g v)).2 := rfl
      rw [hrunstep]
      have hseensub : seen ⊆ (bfsEnqueue seen rest (adjOf g v)).1 := by
        rw [hE1]
        exact Finset.subset_union_left
      have hq2 : ∀ x ∈ (bfsEnqueue seen rest (adjOf g v)).2,
          x ∈ (bfsEnqueue seen rest (adjOf g v)).1 := by
        intro x hx
        rw [hE2, List.mem_append] at hx
        rcases hx with hx | hx
        · exact hseensub (hq x (List.mem_cons_of_mem v hx))
        · have := List.mem_toFinset.mpr hx
          rw [hE4, Finset.mem_sdiff] at this
          rw [hE1]
          exact Finset.mem_union_right seen this.1
      have hsat2 : ∀ w ∈ (bfsEnqueue seen rest (adjOf g v)).1,
          w ∉ (bfsEnqueue seen rest (adjOf g v)).2 →
          ∀ u, subAdj g w u → u ∈ (bfsEnqueue seen rest (adjOf g v)).1 := by
        intro w hw hwq u hadj
        by_cases hwv : w = v
        · subst hwv
          rw [hE1]
          exact Finset.mem_union_right seen
            (List.mem_toFinset.mpr ((mem_adjOf g w u).mpr hadj))
        by_cases hws : w ∈ seen
        · have hwrest : w ∉ rest := by
            intro hmem
            exact hwq (by rw [hE2, List.mem_append]; exact Or.inl hmem)
          have hwcons : w ∉ v :: rest := by
            intro hmem
            rcases List.mem_cons.mp hmem with h | h
            · exact hwv h
            · exact hwrest h
          exact hseensub (hsat w hws hwcons u hadj)
        · exfalso
          rw [hE1, Finset.mem_union] at hw
          rcases hw with hw | hw
          · exact hws hw
          · refine hwq ?_
            rw [hE2, List.mem_append]
            right
            refine List.mem_toFinset.mp ?_
            rw [hE4]
            exact Finset.mem_sdiff.mpr ⟨hw, hws⟩
      have hlen : (bfsEnqueue seen rest (adjOf g v)).2.length =
          rest.length + t.toFinset.card := by
        rw [hE2, List.length_append, List.toFinset_card_of_nodup hE3]
      have hAsub : t.toFinset ⊆ Finset.range g.num_nodes \ seen := by
        intro x hx
        rw [hE4, Finset.mem_sdiff] at hx
        refine Finset.mem_sdiff.mpr ⟨Finset.mem_range.mpr ?_, hx.2⟩
        exact adjOf_bounded g v x (List.mem_toFinset.mp hx.1)
      have hsd : Finset.range g.num_nodes \ (bfsEnqueue seen rest (adjOf g v)).1 =
          (Finset.range g.num_nodes \ seen) \ t.toFinset := by
        rw [hE1, hE4]
        ext x
        simp only [Finset.mem_sdiff, Finset.mem_union, List.mem_toFinset]
        tauto
      have hfuel2 : (bfsEnqueue seen rest (adjOf g v)).2.length +
          (Finset.range g.num_nodes \
            (bfsEnqueue seen rest (adjOf g v)).1).card ≤ fuel := by
        rw [hlen, hsd, Finset.card_sdiff hAsub]
        have h1 : t.toFinset.card ≤ (Finset.range g.num_nodes \ seen).card :=
          Finset.card_le_card hAsub
        simp only [List.length_cons] at hfuel
        omega
      obtain ⟨ih1, ih2, ih3⟩ := ih _ _ hq2 hsat2 hfuel2
      refine ⟨hseensub.trans ih1, ih2, ?_⟩
      intro u hu
      rcases ih3 u hu with h | ⟨w, hw, hreach⟩
      · rw [hE1, Finset.mem_union] at h
        rcases h with h | h
        · exact Or.inl h
        · exact Or.inr ⟨v, List.mem_cons_self v rest,
            Relation.ReflTransGen.single
              ((mem_adjOf g v u).mp (List.mem_toFinset.mp h))⟩
      · rw [hE2, List.mem_append] at hw
        rcases hw with hw | hw
        · exact Or.inr ⟨w, List.mem_cons_of_mem v hw, hreach⟩
        · have hwadj : w ∈ adjOf g v := by
            have hx := List.mem_toFinset.mpr hw
            rw [hE4, Finset.mem_sdiff] at hx
            exact List.mem_toFinset.mp hx.1
          exact Or.inr ⟨v, List.mem_cons_self v rest,
            Relation.ReflTransGen.head ((mem_adjOf g v w).mp hwadj) hreach⟩

/-! ## C1/C10: the root-scanning loop counts minimal representatives -/

/-- `j` is the least node of its connected component (in the in-range
subgraph): it cannot reach any smaller node. -/
def MinRep (g : hil_graph_t) (j : ℕ) : Prop :=
  ∀ k < j, ¬ Relation.ReflTransGen (subAdj g) j k

/-- Loop invariant of the root scan: after processing roots `0..i-1` the
seen set is exactly the set of nodes reachable from some processed root,
it is adjacency-closed, and the counter equals the number of minimal
representatives among the processed roots. -/
theorem components_fold_spec (g : hil_graph_t) :
    ∀ i : ℕ,
      (∀ u, u ∈ ((List.range i).foldl (compStep g) ((∅ : Finset ℕ), 0)).1 ↔
        ∃ j < i, Relation.ReflTransGen (subAdj g) j u) ∧
      (∀ v ∈ ((List.range i).foldl (compStep g) ((∅ : Finset ℕ), 0)).1,
        ∀ u, subAdj g v u →
          u ∈ ((List.range i).foldl (compStep g) ((∅ : Finset ℕ), 0)).1) ∧
      ((List.range i).foldl (compStep g) ((∅ : Finset ℕ), 0)).2 =
        Set.ncard {j | j < i ∧ MinRep g j} := by
  intro i
  induction i with
  | zero =>
    refine ⟨by simp, by simp, ?_⟩
    have h : {j | j < 0 ∧ MinRep g j} = ∅ := by
      ext x
      simp
    rw [h, Set.ncard_empty]
    rfl
  | succ i ih =>
    obtain ⟨ih1, ih2, ih3⟩ := ih
    rw [List.range_succ, List.foldl_append, List.foldl_cons, List.foldl_nil]
    set st := (List.range i).foldl (compStep g) ((∅ : Finset ℕ), 0) with hst
    unfold compStep
    by_cases hi : i ∈ st.1
    · rw [if_pos hi]
      obtain ⟨j0, hj0, hr0⟩ := (ih1 i).mp hi
      refine ⟨?_, ih2, ?_⟩
      · intro u
        rw [ih1 u]
        constructor
        · rintro ⟨j, hj, hr⟩
          exact ⟨j, by omega, hr⟩
        · rintro ⟨j, hj, hr⟩
          by_cases hji : j = i
          · subst hji
            exact ⟨j0, hj0, hr0.trans hr⟩
          · exact ⟨j, by omega, hr⟩
      · rw [ih3]
        have hset : {j | j < i + 1 ∧ MinRep g j} = {j | j < i ∧ MinRep g j} := by
          ext x
          simp only [Set.mem_setOf_eq]
          constructor
          · rintro ⟨hx, hm⟩
            by_cases hxi : x = i
            · subst hxi
              exact absurd (reach_symm g hr0) (hm j0 hj0)
            · exact ⟨by omega, hm⟩
          · rintro ⟨hx, hm⟩
            exact ⟨by omega, hm⟩
        rw [hset]
    · rw [if_neg hi]
      have hq : ∀ v ∈ [i], v ∈ insert i st.1 := by
        intro v hv
        rw [List.mem_singleton.mp hv]
        exact Finset.mem_insert_self i st.1
      have hsat : ∀ v ∈ insert i st.1, v ∉ [i] → ∀ u, subAdj g v u →
          u ∈ insert i st.1 := by
        intro v hv hvq u hadj
        rcases Finset.mem_insert.mp hv with hv | hv
        · exact absurd (List.mem_singleton.mpr hv) hvq
        · exact Finset.mem_insert_of_mem (ih2 v hv u hadj)
      have hfuel : ([i] : List ℕ).length +
          (Finset.range g.num_nodes \ insert i st.1).card ≤ g.num_nodes + 1 := by
        have h1 : (Finset.range g.num_nodes \ insert i st.1).card ≤
            (Finset.range g.num_nodes).card :=
          Finset.card_le_card (Finset.sdiff_subset)
        rw [Finset.card_range] at h1
        simp only [List.length_singleton]
        omega
      obtain ⟨hb1, hb2, hb3⟩ :=
        bfsRun_spec g (g.num_nodes + 1) (insert i st.1) [i] hq hsat hfuel
      have hMi : MinRep g i := by
        intro k hk hr
        exact hi ((ih1 i).mpr ⟨k, hk, reach_symm g hr⟩)
      refine ⟨?_, hb2, ?_⟩
      · intro u
        constructor
        · intro hu
          rcases hb3 u hu with h | ⟨w, hw, hr⟩
          · rcases Finset.mem_insert.mp h with h | h
            · exact ⟨i, by omega, h ▸ Relation.ReflTransGen.refl⟩
            · obtain ⟨j, hj, hr⟩ := (ih1 u).mp h
              exact ⟨j, by omega, hr⟩
          · rw [List.mem_singleton.mp hw] at hr
            exact ⟨i, by omega, hr⟩
        · rintro ⟨j, hj, hr⟩
          by_cases hji : j = i
          · subst hji
            exact reach_mem_closed g _ hb2
              (hb1 (Finset.mem_insert_self j st.1)) hr
          · have hj_st : j ∈ st.1 := (ih1 j).mpr ⟨j, by omega,
              Relation.ReflTransGen.refl⟩
            have hu_st : u ∈ st.1 := reach_mem_closed g st.1 ih2 hj_st hr
            exact hb1 (Finset.mem_insert_of_mem hu_st)
      · rw [ih3]
        have hset : {j | j < i + 1 ∧ MinRep g j} =
            insert i {j | j < i ∧ MinRep g j} := by
          ext x
          simp only [Set.mem_setOf_eq, Set.mem_insert_iff]
          constructor
          · rintro ⟨hx, hm⟩
            by_cases hxi : x = i
            · exact Or.inl hxi
            · exact Or.inr ⟨by omega, hm⟩
          · rintro (hx | ⟨hx, hm⟩)
            · exact ⟨by omega, hx ▸ hMi⟩
            · exact ⟨by omega, hm⟩
        rw [hset, Set.ncard_insert_of_not_mem (by simp)
          ((Set.finite_Iio i).subset (fun x hx => hx.1))]

/-- The component count equals the number of least-of-their-component
nodes. -/
theorem components_eq_minrep (g : hil_graph_t) :
    hil_graph_connected_components (some g) =
      Set.ncard {j | j < g.num_nodes ∧ MinRep g j} := by
  unfold hil_graph_connected_components
  dsimp only
  by_cases hn : g.num_nodes = 0
  · rw [if_pos hn]
    have h : {j | j < g.num_nodes ∧ MinRep g j} = ∅ := by
      ext x
      simp [hn]
    rw [h, Set.ncard_empty]
  · rw [if_neg hn]
    exact (components_fold_spec g g.num_nodes).2.2

/-! ## C1/C10: counting components via minimal representatives -/

/-- The set of reachability classes is the image of the minimal
representatives under the class map, which is injective there; hence the
two counts agree. -/
theorem minrep_card_eq_subComponents (g : hil_graph_t) :
    Set.ncard {j | j < g.num_nodes ∧ MinRep g j} = subComponents g := by
  have himg : {S : Set ℕ | ∃ i < g.num_nodes,
      S = {u | Relation.ReflTransGen (subAdj g) i u}} =
      (fun i => {u | Relation.ReflTransGen (subAdj g) i u}) ''
        {j | j < g.num_nodes ∧ MinRep g j} := by
    ext S
    simp only [Set.mem_setOf_eq, Set.mem_image]
    constructor
    · rintro ⟨i, hi, rfl⟩
      have hne : {j | Relation.ReflTransGen (subAdj g) i j}.Nonempty :=
        ⟨i, Relation.ReflTransGen.refl⟩
      have hmem : sInf {j | Relation.ReflTransGen (subAdj g) i j} ∈
          {j | Relation.ReflTransGen (subAdj g) i j} := Nat.sInf_mem hne
      have hmle : sInf {j | Relation.ReflTransGen (subAdj g) i j} ≤ i :=
        Nat.sInf_le Relation.ReflTransGen.refl
      refine ⟨sInf {j | Relation.ReflTransGen (subAdj g) i j},
        ⟨by omega, ?_⟩, ?_⟩
      · intro k hk hr
        have hik : Relation.ReflTransGen (subAdj g) i k := hmem.trans hr
        have h2 : sInf {j | Relation.ReflTransGen (subAdj g) i j} ≤ k :=
          Nat.sInf_le hik
        omega
      · ext u
        simp only [Set.mem_setOf_eq]
        constructor
        · intro h
          exact hmem.trans h
        · intro h
          exact (reach_symm g hmem).trans h
    · rintro ⟨m, ⟨hmn, _⟩, rfl⟩
      exact ⟨m, hmn, rfl⟩
  have hinj : Set.InjOn (fun i => {u | Relation.ReflTransGen (subAdj g) i u})
      {j | j < g.num_nodes ∧ MinRep g j} := by
    rintro a ⟨han, hma⟩ b ⟨hbn, hmb⟩ hfab
    by_contra hne
    dsimp only at hfab
    have hab : Relation.ReflTransGen (subAdj g) a b := by
      have hb : b ∈ {u | Relation.ReflTransGen (subAdj g) b u} :=
        Relation.ReflTransGen.refl
      rw [← hfab] at hb
      exact hb
    rcases Nat.lt_or_ge a b with h | h
    · exact hmb a h (reach_symm g hab)
    · have h2 : b < a := by omega
      exact hma b h2 hab
  unfold subComponents
  rw [himg, Set.ncard_image_of_injOn hinj]

/-- The BFS routine computes exactly the number of connected components
of the subgraph formed by the in-range edges. -/
theorem components_eq_subComponents (g : hil_graph_t) :
    hil_graph_connected_components (some g) = subComponents g :=
  (components_eq_minrep g).trans (minrep_card_eq_subComponents g)

/-- On a validated graph all endpoints are in range, so the in-range
subgraph relation coincides with the full edge-list relation. -/
theorem valid_subComponents_eq_specComponents (g : hil_graph_t)
    (hv : hil_graph_validate (some g) = true) :
    subComponents g = specComponents g := by
  obtain ⟨_, _, hgood⟩ := (validate_true_iff g).mp hv
  have hrel : subAdj g = specAdj g := by
    funext u v
    apply propext
    constructor
    · rintro ⟨e, he, _, _, hc⟩
      exact ⟨e, he, hc⟩
    · rintro ⟨e, he, hc⟩
      exact ⟨e, he, (hgood e he).1, (hgood e he).2.1, hc⟩
  unfold subComponents specComponents
  rw [hrel]

/-! ## C1/C10: the instance graphs named by the specification -/

/-- Path graph on `n` nodes: `n-1` edges joining consecutive indices. -/
def pathGraph (n : ℕ) : hil_graph_t :=
  ⟨n, n - 1, some (fun e => e), some (fun e => e + 1), some (fun _ => HDouble.fin 1)⟩

/-- Two disjoint triangles on 6 nodes. -/
def triangles6 : hil_graph_t :=
  ⟨6, 6, some (fun e => [0, 1, 0, 3, 4, 3].getD e 0),
    some (fun e => [1, 2, 2, 4, 5, 5].getD e 0), some (fun _ => HDouble.fin 1)⟩

/-- C1: `hil_graph_connected_components` returns `0` exactly for an
absent graph or `num_nodes == 0`; on every validated graph it returns the
number of connected components of the undirected graph induced by the
edge list; any zero-edge graph yields one component per node, a path
graph yields `1`, and two disjoint triangles on 6 nodes yield `2`. -/
theorem C1_connected_components (graph : Option hil_graph_t) :
    (hil_graph_connected_components graph = 0 ↔
      graph = none ∨ ∃ g, graph = some g ∧ g.num_nodes = 0) ∧
    (∀ g, graph = some g → hil_graph_validate graph = true →
      hil_graph_connected_components graph = specComponents g) ∧
    (∀ g, graph = some g → g.num_edges = 0 →
      hil_graph_connected_components graph = g.num_nodes) ∧
    (∀ n, 1 ≤ n → hil_graph_connected_components (some (pathGraph n)) = 1) ∧
    hil_graph_connected_components (some triangles6) = 2 := by
  refine ⟨?_, ?_, ?_, ?_, by decide⟩
  · cases graph with
    | none => simp [hil_graph_connected_components]
    | some g =>
      have hR : ((some g : Option hil_graph_t) = none ∨
          ∃ g2, some g = some g2 ∧ g2.num_nodes = 0) ↔ g.num_nodes = 0 := by
        simp
      rw [hR]
      by_cases hn : g.num_nodes = 0
      · constructor
        · intro _
          exact hn
        · intro _
          unfold hil_graph_connected_components
          dsimp only
          rw [if_pos hn]
      · rw [components_eq_minrep g]
        constructor
        · intro h0
          exfalso
          have hfin : {j | j < g.num_nodes ∧ MinRep g j}.Finite :=
            (Set.finite_Iio g.num_nodes).subset (fun x hx => hx.1)
          have hempty := (Set.ncard_eq_zero hfin).mp h0
          have hmem : (0 : ℕ) ∈ {j | j < g.num_nodes ∧ MinRep g j} :=
            ⟨by omega, fun k hk => absurd hk (by omega)⟩
          rw [hempty] at hmem
          exact hmem
        · intro h
          exact absurd h hn
  · intro g hg hv
    subst hg
    rw [components_eq_subComponents g, valid_subComponents_eq_specComponents g hv]
  · intro g hg hm
    subst hg
    rw [components_eq_minrep g]
    have hmin : ∀ j, MinRep g j := by
      intro j k hk hr
      rcases Relation.ReflTransGen.cases_head hr with heq | ⟨c, hstep, _⟩
      · omega
      · obtain ⟨e, he, _⟩ := hstep
        omega
    have hset : {j | j < g.num_nodes ∧ MinRep g j} = Set.Iio g.num_nodes := by
      ext x
      simp only [Set.mem_setOf_eq, Set.mem_Iio]
      exact ⟨fun h => h.1, fun h => ⟨h, hmin x⟩⟩
    rw [hset, ← Finset.coe_Iio, Set.ncard_coe_Finset, Nat.card_Iio]
  · intro n hn
    rw [components_eq_minrep (pathGraph n)]
    have hnn : (pathGraph n).num_nodes = n := rfl
    have hstep : ∀ j, 0 < j → j < n → subAdj (pathGraph n) j (j - 1) := by
      intro j hj0 hjn
      refine ⟨j - 1, show j - 1 < n - 1 by omega, show j - 1 < n by omega,
        show j - 1 + 1 < n by omega, Or.inr ⟨rfl, show j - 1 + 1 = j by omega⟩⟩
    have hset : {j | j < (pathGraph n).num_nodes ∧ MinRep (pathGraph n) j} =
        {0} := by
      rw [hnn]
      ext x
      simp only [Set.mem_setOf_eq, Set.mem_singleton_iff]
      constructor
      · rintro ⟨hx, hm⟩
        by_contra hx0
        exact hm (x - 1) (by omega)
          (Relation.ReflTransGen.single (hstep x (by omega) hx))
      · rintro rfl
        exact ⟨by omega, fun k hk => absurd hk (by omega)⟩
    rw [hset, Set.ncard_singleton]

/-- Witness for C1: the two-triangles graph is valid and its component
count is the specification-side component count. -/
theorem C1_connected_components_witness :
    hil_graph_connected_components (some triangles6) = specComponents triangles6 :=
  (C1_connected_components (some triangles6)).2.1 triangles6 rfl (by decide)

/-- C10: for every graph, valid or not, the component count never reads
outside the node range: both adjacency passes skip edges with an
out-of-range endpoint, and the result is exactly the component count of
the subgraph formed by the in-range edges. -/
theorem C10_out_of_range_skipped (g : hil_graph_t) :
    hil_graph_connected_components (some g) = subComponents g :=
  components_eq_subComponents g

end HIL
